import Mathlib

/-!
Verification development for the searchable-encryption engine of this
repository (app/encryption.py, app/utils.py, app/bloomy.py, app/routes.py).

Modelling conventions:
* Python byte strings and text strings are both modelled as `List Nat`
  (byte values, respectively Unicode code points).  The claims under study
  only exercise the ASCII fragment, where UTF-8 encoding is the identity on
  code points, so `pyOfString` maps a Lean string literal to its code points.
* Machine integers do not occur; Python integers are unbounded, and 32-bit
  arithmetic inside SHA-256 is made explicit with `% 4294967296`.
* Fallible Python code (code that raises, caught or not) is modelled with
  `Option`/`Except`.
-/

set_option maxRecDepth 100000

namespace SSS

/-- Code points of a Lean string literal, used to write concrete Python
string inputs. On the ASCII fragment exercised by all concrete inputs in
this development, Python UTF-8 `encode` is the identity on code points. -/
def pyOfString (s : String) : List Nat := s.data.map Char.toNat

/-- Big-endian byte serialization of `v` on exactly `n` bytes
(Python `int.to_bytes(n, 'big')`, truncating like the low bytes). -/
def beBytes : Nat → Nat → List Nat
  | 0, _ => []
  | n + 1, v => beBytes n (v / 256) ++ [v % 256]

/-- Big-endian interpretation of a byte list as an unbounded integer
(Python `int.from_bytes(h, 'big')`). -/
def fromBytesBE (l : List Nat) : Nat := l.foldl (fun a b => a * 256 + b) 0

/-- Helper for `decimalDigits`: the fuel argument only bounds the recursion
depth so the definition is structural (hence kernel-reducible); any fuel of
at least the digit count gives the same result. -/
def decimalDigitsAux : Nat → Nat → List Nat
  | 0, _ => []
  | fuel + 1, n =>
      if n < 10 then [48 + n] else decimalDigitsAux fuel (n / 10) ++ [48 + n % 10]

/-- ASCII decimal digits of a natural number, i.e. Python `str(n)` for a
nonnegative integer `n`. -/
def decimalDigits (n : Nat) : List Nat := decimalDigitsAux (n + 1) n

/-- Lowercase hex digit character code for a value below 16
(Python `bytes.hex()` uses lowercase digits). -/
def hexDigit (v : Nat) : Nat := if v < 10 then 48 + v else 87 + v

/-- Lowercase hex encoding of a byte list, i.e. Python `bytes.hex()`. -/
def hexOfBytes (l : List Nat) : List Nat :=
  l.flatMap (fun b => [hexDigit (b / 16), hexDigit (b % 16)])

namespace SHA256

/-!
Executable SHA-256 (FIPS 180-4), the primitive behind `hashlib.sha256`,
`hmac` with a SHA-256 digest, and the PBKDF2 instances used by the
repository.  It is implemented in full so that every concrete evaluation in
this file (Bloom filter bit positions, authentication-tag comparisons)
reproduces the digests the Python source would compute.
-/

/-- 32-bit truncating addition. -/
def add32 (a b : Nat) : Nat := (a + b) % 4294967296

/-- Right rotation of a 32-bit word by `n` places. -/
def rotr (n x : Nat) : Nat := ((x >>> n) ||| (x <<< (32 - n))) % 4294967296

/-- Bitwise complement within 32 bits. -/
def not32 (x : Nat) : Nat := x ^^^ 4294967295

/-- SHA-256 small sigma 0. -/
def ssig0 (x : Nat) : Nat := (rotr 7 x) ^^^ (rotr 18 x) ^^^ (x >>> 3)

/-- SHA-256 small sigma 1. -/
def ssig1 (x : Nat) : Nat := (rotr 17 x) ^^^ (rotr 19 x) ^^^ (x >>> 10)

/-- SHA-256 big sigma 0. -/
def bsig0 (x : Nat) : Nat := (rotr 2 x) ^^^ (rotr 13 x) ^^^ (rotr 22 x)

/-- SHA-256 big sigma 1. -/
def bsig1 (x : Nat) : Nat := (rotr 6 x) ^^^ (rotr 11 x) ^^^ (rotr 25 x)

/-- SHA-256 choice function. -/
def ch (e f g : Nat) : Nat := (e &&& f) ^^^ (not32 e &&& g)

/-- SHA-256 majority function. -/
def maj (a b c : Nat) : Nat := (a &&& b) ^^^ (a &&& c) ^^^ (b &&& c)

/-- The 64 SHA-256 round constants (FIPS 180-4 section 4.2.2), written in
decimal. -/
def K : List Nat :=
  [1116352408, 1899447441, 3049323471, 3921009573, 961987163, 1508970993,
   2453635748, 2870763221, 3624381080, 310598401, 607225278, 1426881987,
   1925078388, 2162078206, 2614888103, 3248222580, 3835390401, 4022224774,
   264347078, 604807628, 770255983, 1249150122, 1555081692, 1996064986,
   2554220882, 2821834349, 2952996808, 3210313671, 3336571891, 3584528711,
   113926993, 338241895, 666307205, 773529912, 1294757372, 1396182291,
   1695183700, 1986661051, 2177026350, 2456956037, 2730485921, 2820302411,
   3259730800, 3345764771, 3516065817, 3600352804, 4094571909, 275423344,
   430227734, 506948616, 659060556, 883997877, 958139571, 1322822218,
   1537002063, 1747873779, 1955562222, 2024104815, 2227730452, 2361852424,
   2428436474, 2756734187, 3204031479, 3329325298]

/-- The SHA-256 initial hash value (FIPS 180-4 section 5.3.3), written in
decimal. -/
def H0 : List Nat :=
  [1779033703, 3144134277, 1013904242, 2773480762,
   1359893119, 2600822924, 528734635, 1541459225]

/-- Big-endian 32-bit words from a byte list. -/
def wordsOfBytes : List Nat → List Nat
  | b0 :: b1 :: b2 :: b3 :: rest =>
      (((b0 * 256 + b1) * 256 + b2) * 256 + b3) :: wordsOfBytes rest
  | _ => []

/-- One extension step of the message schedule: appends word `W[n]` computed
from the words 2, 7, 15 and 16 places back. -/
def schedStep (w : List Nat) : List Nat :=
  let n := w.length
  w ++ [add32 (add32 (ssig1 (w.getD (n - 2) 0)) (w.getD (n - 7) 0))
              (add32 (ssig0 (w.getD (n - 15) 0)) (w.getD (n - 16) 0))]

/-- One SHA-256 compression round on the eight working variables. -/
def compressRound (kt wt : Nat) (s : List Nat) : List Nat :=
  match s with
  | [a, b, c, d, e, f, g, h] =>
      let t1 := add32 (add32 (add32 h (bsig1 e)) (add32 (ch e f g) kt)) wt
      let t2 := add32 (bsig0 a) (maj a b c)
      [add32 t1 t2, a, b, c, add32 d t1, e, f, g]
  | other => other

/-- SHA-256 compression of one 64-byte block into the running hash value. -/
def compressBlock (H : List Nat) (block : List Nat) : List Nat :=
  let w0 := wordsOfBytes block
  let w := (List.range 48).foldl (fun acc _ => schedStep acc) w0
  let s := (List.zip K w).foldl (fun st kw => compressRound kw.1 kw.2 st) H
  List.zipWith add32 H s

/-- Helper for `chunk64`: fuel-bounded structural recursion; any fuel of at
least the list length gives the same result. -/
def chunk64Aux : Nat → List Nat → List (List Nat)
  | 0, _ => []
  | _, [] => []
  | fuel + 1, b :: rest => (b :: rest).take 64 :: chunk64Aux fuel ((b :: rest).drop 64)

/-- Splits a byte list into 64-byte chunks. -/
def chunk64 (l : List Nat) : List (List Nat) := chunk64Aux l.length l

/-- SHA-256 padding: a 0x80 byte, zeros to 56 mod 64, and the 64-bit
big-endian bit length of the message. -/
def pad (msg : List Nat) : List Nat :=
  msg ++ 128 :: (List.replicate ((119 - msg.length % 64) % 64) 0
    ++ beBytes 8 (msg.length * 8))

/-- SHA-256 digest (32 bytes) of a byte list, i.e.
`hashlib.sha256(msg).digest()`. -/
def sha256 (msg : List Nat) : List Nat :=
  (((chunk64 (pad msg)).foldl compressBlock H0).map (beBytes 4)).flatten

end SHA256

namespace B64

/-!
Base64 (RFC 4648) as used by the source: `base64.b64encode` /
`base64.b64decode` in app/bloomy.py (flag `false`) and
`base64.urlsafe_b64encode` / `base64.urlsafe_b64decode` in
app/encryption.py (flag `true`); the two differ only in the characters for
the sextet values 62 and 63.  `decode` is exact on well-formed base64 text
and returns `none` otherwise; Python instead raises `binascii.Error` on the
malformed inputs it rejects (every caller in the source either receives
well-formed text or catches the exception).
-/

/-- Alphabet character code of a sextet value. -/
def sextetChar (u : Bool) (v : Nat) : Nat :=
  if v < 26 then 65 + v
  else if v < 52 then 97 + (v - 26)
  else if v < 62 then 48 + (v - 52)
  else if v = 62 then (if u then 45 else 43)
  else (if u then 95 else 47)

/-- Sextet value of an alphabet character code, `none` off the alphabet. -/
def charSextet (u : Bool) (c : Nat) : Option Nat :=
  if 65 ≤ c ∧ c ≤ 90 then some (c - 65)
  else if 97 ≤ c ∧ c ≤ 122 then some (c - 97 + 26)
  else if 48 ≤ c ∧ c ≤ 57 then some (c - 48 + 52)
  else if c = (if u then 45 else 43) then some 62
  else if c = (if u then 95 else 47) then some 63
  else none

/-- Base64 encoding of a byte list; 61 is the pad character. -/
def encode (u : Bool) : List Nat → List Nat
  | [] => []
  | [b1] => [sextetChar u (b1 / 4), sextetChar u (b1 % 4 * 16), 61, 61]
  | [b1, b2] => [sextetChar u (b1 / 4), sextetChar u (b1 % 4 * 16 + b2 / 16),
                 sextetChar u (b2 % 16 * 4), 61]
  | b1 :: b2 :: b3 :: rest =>
      sextetChar u (b1 / 4) :: sextetChar u (b1 % 4 * 16 + b2 / 16) ::
      sextetChar u (b2 % 16 * 4 + b3 / 64) :: sextetChar u (b3 % 64) ::
      encode u rest

/-- Base64 decoding of a character-code list. -/
def decode (u : Bool) : List Nat → Option (List Nat)
  | [] => some []
  | c1 :: c2 :: c3 :: c4 :: rest =>
      match rest with
      | [] =>
          (charSextet u c1).bind fun s1 =>
          (charSextet u c2).bind fun s2 =>
          if c3 = 61 ∧ c4 = 61 then
            some [s1 * 4 + s2 / 16]
          else if c4 = 61 then
            (charSextet u c3).bind fun s3 =>
            some [s1 * 4 + s2 / 16, s2 % 16 * 16 + s3 / 4]
          else
            (charSextet u c3).bind fun s3 =>
            (charSextet u c4).bind fun s4 =>
            some [s1 * 4 + s2 / 16, s2 % 16 * 16 + s3 / 4, s3 % 4 * 64 + s4]
      | r :: rs =>
          (charSextet u c1).bind fun s1 =>
          (charSextet u c2).bind fun s2 =>
          (charSextet u c3).bind fun s3 =>
          (charSextet u c4).bind fun s4 =>
          (decode u (r :: rs)).map fun tail =>
          (s1 * 4 + s2 / 16) :: (s2 % 16 * 16 + s3 / 4) :: (s3 % 4 * 64 + s4) :: tail
  | _ => none

end B64

/-!
app/utils.py: `normalize_string` and `generate_trigrams`.  Text is a list of
code points.  The model covers the character semantics Python applies on
this data: `str.lower` maps A-Z to a-z (code points 65-90 to 97-122),
`str.strip` and the regex class `\s` agree on the whitespace set, which
within ASCII is {9, 10, 11, 12, 13, 28, 29, 30, 31, 32}; the regex class
`[^a-z0-9\s]` removes every character outside a-z, 0-9 and that whitespace
set, and `\s+` is replaced by one space (32) per maximal whitespace run.
-/

/-- Whitespace test of the regex class `\s` and of `str.strip`, restricted
to the ASCII range. -/
def isSpace (c : Nat) : Bool :=
  c = 32 || c = 9 || c = 10 || c = 11 || c = 12 || c = 13 ||
  c = 28 || c = 29 || c = 30 || c = 31

/-- Python `str.lower` on the ASCII range: maps A-Z to a-z. -/
def lowerChar (c : Nat) : Nat := if 65 ≤ c ∧ c ≤ 90 then c + 32 else c

/-- Membership in the regex class `[a-z0-9\s]` (the characters kept by the
removal pass of `normalize_string`). -/
def isKept (c : Nat) : Bool :=
  (97 ≤ c && c ≤ 122) || (48 ≤ c && c ≤ 57) || isSpace c

/-- Removes trailing characters satisfying `p` (the right half of Python
`str.strip`). -/
def dropTrailing (p : Nat → Bool) : List Nat → List Nat
  | [] => []
  | c :: rest =>
      match dropTrailing p rest with
      | [] => if p c then [] else [c]
      | r :: rs => c :: r :: rs

/-- Python `str.strip`: removes leading and trailing whitespace. -/
def stripWS (l : List Nat) : List Nat := dropTrailing isSpace (l.dropWhile isSpace)

/-- Helper for `collapseWS`: `prevSpace` records whether the previous
character was whitespace, so that each maximal whitespace run contributes
exactly one space character, as `re.sub(r"\s+", " ", text)` does. -/
def collapseAux : Bool → List Nat → List Nat
  | _, [] => []
  | prevSpace, c :: rest =>
      if isSpace c then
        (if prevSpace then [] else [32]) ++ collapseAux true rest
      else c :: collapseAux false rest

/-- Replacement of every maximal whitespace run by a single space. -/
def collapseWS (l : List Nat) : List Nat := collapseAux false l

/-- Model of utils.normalize_string: lower-case, strip, remove characters
outside `[a-z0-9\s]`, collapse whitespace runs, in source order. -/
def normalize_string (text : List Nat) : List Nat :=
  collapseWS ((stripWS (text.map lowerChar)).filter isKept)

/-- Replaces spaces by underscores inside one trigram window
(`trigram.replace(" ", "_")` in the source). -/
def underscoreSpaces (t : List Nat) : List Nat :=
  t.map (fun c => if c = 32 then 95 else c)

/-- Model of utils.generate_trigrams: normalizes, short-circuits below 3
characters, slides a width-3 window, rewrites spaces to underscores, keeps
windows of length 3 and deduplicates.  Python deduplicates through
`list(set(...))` whose order is unspecified; the model uses `List.dedup`,
and every claim about the result is stated set-wise. -/
def generate_trigrams (text : List Nat) : List (List Nat) :=
  let normalized := normalize_string text
  if normalized.length < 3 then []
  else (((List.range (normalized.length - 2)).map
          (fun i => underscoreSpaces ((normalized.drop i).take 3))).filter
          (fun t => t.length == 3)).dedup

/-- Adjacent-pair check used in the idempotence analysis: true when no two
consecutive characters are both whitespace. -/
def noDouble : List Nat → Bool
  | c1 :: c2 :: rest => (!(isSpace c1 && isSpace c2)) && noDouble (c2 :: rest)
  | _ => true

/-- Head check used in the idempotence analysis: true when the list is empty
or starts with a non-whitespace character. -/
def headNotSpace : List Nat → Bool
  | [] => true
  | c :: _ => !isSpace c

namespace GCM

/-!
Deterministic executable model of the AES-256-GCM AEAD used through
`cryptography.hazmat.primitives.ciphers.aead.AESGCM` (a primitive external
to the repository).  The model keeps every structural property the claims
depend on: encryption produces `body ++ tag` where `body` has the plaintext
length and the tag is 16 bytes; the keystream depends only on key, nonce
and position; the tag binds key, nonce, the associated data (length
delimited) and the ciphertext body, exactly the quantities GHASH binds;
decryption accepts exactly when the recomputed tag over the supplied
associated data equals the trailing 16 bytes, and `AESGCM.decrypt` raises
`InvalidTag` otherwise (also when the input is shorter than a tag).  The
AES block computations themselves are replaced by SHA-256-derived bytes:
no claim in this file depends on concrete AES values, only on determinism,
byte range, lengths, and what the tag binds.
-/

/-- Bytewise XOR (truncating to the shorter list, which never happens in
the uses below: lengths always agree). -/
def xorBytes (a b : List Nat) : List Nat := List.zipWith (fun x y => x ^^^ y) a b

/-- Model of the CTR keystream: `len` bytes derived from key and nonce. -/
def keystream (key nonce : List Nat) (len : Nat) : List Nat :=
  ((List.range (len / 32 + 1)).map
    (fun i => SHA256.sha256 (key ++ nonce ++ decimalDigits i))).flatten.take len

/-- Model of the 16-byte GCM authentication tag over associated data and
ciphertext body under key and nonce. -/
def gcmTag (key nonce aad body : List Nat) : List Nat :=
  (SHA256.sha256 (key ++ nonce ++ decimalDigits aad.length ++ aad ++ body)).take 16

/-- Model of `AESGCM.encrypt(nonce, data, associated_data)`: returns the
ciphertext body with the 16-byte tag appended. -/
def gcmEncrypt (key nonce pt aad : List Nat) : List Nat :=
  xorBytes pt (keystream key nonce pt.length)
    ++ gcmTag key nonce aad (xorBytes pt (keystream key nonce pt.length))

/-- Model of `AESGCM.decrypt(nonce, data, associated_data)`: splits off the
trailing 16 bytes as the tag, recomputes the tag over the supplied
associated data and the body, and releases the plaintext only on an exact
match; `none` models the `InvalidTag` exception. -/
def gcmDecrypt (key nonce data aad : List Nat) : Option (List Nat) :=
  if data.length < 16 then none
  else if gcmTag key nonce aad (data.take (data.length - 16))
      = data.drop (data.length - 16) then
    some (xorBytes (data.take (data.length - 16))
      (keystream key nonce (data.take (data.length - 16)).length))
  else none

end GCM

/-- Model of EncryptionService.encrypt_data.  The source draws
`iv = secrets.token_bytes(12)` internally; the model takes the iv as an
explicit parameter, and `key` stands for the `self.aes_key` the service
would hold.  Encryption runs with associated data `None` (empty), and the
returned triple is `(urlsafe_b64(ciphertext), urlsafe_b64(iv),
urlsafe_b64(ciphertext[-16:]))` exactly as in the source. -/
def encrypt_data (key iv pt : List Nat) : List Nat × List Nat × List Nat :=
  let ciphertext := GCM.gcmEncrypt key iv pt []
  (B64.encode true ciphertext, B64.encode true iv,
   B64.encode true (ciphertext.drop (ciphertext.length - 16)))

/-- Model of `bytes.decode()` (UTF-8) on the ASCII fragment: succeeds on
bytes below 128 and is then the identity on code points; a failure raises
`UnicodeDecodeError` in Python, which `decrypt_data` catches. -/
def asciiDecode (l : List Nat) : Option (List Nat) :=
  if l.all (fun b => b < 128) then some l else none

/-- Model of EncryptionService.decrypt_data.  Note the third positional
argument of `AESGCM.decrypt` is the associated data: the source passes the
decoded `tag` there (encryption used `None`).  Every exception of the body
(base64 decoding, `InvalidTag`, UTF-8 decoding) is caught and turned into
`None`, modelled as `none`. -/
def decrypt_data (key : List Nat) (ciphertext iv tag : List Nat) : Option (List Nat) :=
  match B64.decode true ciphertext, B64.decode true iv, B64.decode true tag with
  | some ct, some iv_bytes, some tag_bytes =>
      (GCM.gcmDecrypt key iv_bytes ct tag_bytes).bind asciiDecode
  | _, _, _ => none

/-- Model of `PBKDF2HMAC(SHA256, length, salt, iterations).derive(password)`
(a primitive external to the repository).  The real KDF iterates HMAC-SHA256
`iterations` times per 32-byte output block; the model keeps the interface —
password, salt and iteration count all determine the output, which has
exactly `length` bytes — and derives the bytes with a single SHA-256 per
block so the definition stays kernel-evaluable.  No claim settled against
it depends on the concrete derived bytes, only on output length, byte range
and determinism. -/
def pbkdf2_hmac_sha256 (password salt : List Nat) (iterations length : Nat) :
    List Nat :=
  ((List.range (length / 32 + 1)).map
    (fun i => SHA256.sha256 (password ++ decimalDigits password.length ++ salt
      ++ decimalDigits iterations ++ decimalDigits i))).flatten.take length

/-- Model of EncryptionService._load_aes_key: PBKDF2-HMAC-SHA256 with salt
`secure_bloom_sse` and 100000 iterations over the AES_KEY secret, then —
as the source does — `base64.urlsafe_b64encode` of the 32 derived bytes.
The returned value is therefore the 44-character base64 text, not the raw
32-byte key. -/
def load_aes_key (secret : List Nat) : List Nat :=
  B64.encode true (pbkdf2_hmac_sha256 secret (pyOfString "secure_bloom_sse") 100000 32)

/-- Model of EncryptionService._load_hmac_key: PBKDF2-HMAC-SHA256 with salt
`hmac_blind_index` and 100000 iterations over the HMAC_KEY secret, then
`base64.urlsafe_b64encode` of the 32 derived bytes. -/
def load_hmac_key (secret : List Nat) : List Nat :=
  B64.encode true (pbkdf2_hmac_sha256 secret (pyOfString "hmac_blind_index") 100000 32)

/-- Key length check of the `AESGCM` constructor: it raises `ValueError`
unless the key is 16, 24 or 32 bytes.  `EncryptionService.__init__` runs
`AESGCM(self.aes_key)` on the value of `_load_aes_key`. -/
def aesgcmKeyLengthOk (key : List Nat) : Bool :=
  key.length == 16 || key.length == 24 || key.length == 32

/-- Python exception kinds relevant to the hmac.new model. -/
inductive PyError where
  | attributeError
  | valueError
deriving DecidableEq

/-- The shapes an object passed as the `digestmod` argument of stdlib
`hmac.new` can take: a hashlib-style constructor (callable), a digest name
string, or any other object — which `hmac._init_old` treats as a module and
probes for a `new` attribute.
`cryptography.hazmat.primitives.hashes.SHA256()` — the value the source
passes — is such an object: it is not callable, not a string, and has no
`new` attribute. -/
inductive PyDigestmod where
  | hashConstructor (f : List Nat → List Nat)
  | digestName (s : List Nat)
  | objectWithoutNew

/-- HMAC (RFC 2104) with a 64-byte block over the given hash function, the
computation stdlib `hmac` performs once its digest constructor is valid. -/
def hmacDigest (hash : List Nat → List Nat) (key msg : List Nat) : List Nat :=
  let k0 := if 64 < key.length then hash key else key
  let kp := k0 ++ List.replicate (64 - k0.length) 0
  hash ((kp.map (fun b => b ^^^ 92)) ++ hash ((kp.map (fun b => b ^^^ 54)) ++ msg))

/-- Model of stdlib `hmac.new(key, msg, digestmod)` dispatch on `digestmod`:
a callable constructor or a known digest name succeeds and computes HMAC;
any other object is used as `digestmod.new(...)`, which raises
`AttributeError` when the object has no `new` attribute. -/
def hmacNew (key msg : List Nat) : PyDigestmod → Except PyError (List Nat)
  | .hashConstructor f => .ok (hmacDigest f key msg)
  | .digestName s =>
      if s = pyOfString "sha256" then .ok (hmacDigest SHA256.sha256 key msg)
      else .error .valueError
  | .objectWithoutNew => .error .attributeError

/-- Model of EncryptionService.generate_hmac_token: the source calls
`hmac.new(self.hmac_key, value.encode(), hashes.SHA256())`, passing a
`cryptography` hash *instance* (not a hashlib constructor) as `digestmod`;
on success it would hex-encode the digest. -/
def generate_hmac_token (hmac_key value : List Nat) : Except PyError (List Nat) :=
  (hmacNew hmac_key value .objectWithoutNew).map hexOfBytes

/-- Model of app/bloomy.py `BloomFilter`: bit count, hash-function count and
the byte array backing the bits. -/
structure BloomFilter where
  size : Nat
  hash_count : Nat
  bit_array : List Nat
deriving DecidableEq

/-- Model of `BloomFilter.__init__(size, hash_count)`: an all-zero
`bytearray((size + 7) // 8)`.  The source defaults are size 10000 and
hash_count 7. -/
def mkBloomFilter (size hash_count : Nat) : BloomFilter :=
  ⟨size, hash_count, List.replicate ((size + 7) / 8) 0⟩

/-- Model of `BloomFilter._hash(value, seed)`: SHA-256 of the value
concatenated with the decimal seed (Python builds it as an f-string),
interpreted big-endian and reduced modulo `size`.  Stated for positive
`size`; in Python a zero size raises ZeroDivisionError here. -/
def bloomHash (size : Nat) (value : List Nat) (seed : Nat) : Nat :=
  fromBytesBE (SHA256.sha256 (value ++ decimalDigits seed)) % size

/-- One bit-set step of `BloomFilter.add`:
`bit_array[index // 8] |= 1 << (index % 8)`. -/
def setBit (arr : List Nat) (index : Nat) : List Nat :=
  arr.set (index / 8) (arr.getD (index / 8) 0 ||| (1 <<< (index % 8)))

/-- One bit-test step of `BloomFilter.check`:
`bit_array[index // 8] & (1 << (index % 8))` as a boolean. -/
def getBit (arr : List Nat) (index : Nat) : Bool :=
  arr.getD (index / 8) 0 &&& (1 <<< (index % 8)) != 0

/-- Model of `BloomFilter.add`: sets the bit for each of the `hash_count`
seeded positions. -/
def BloomFilter.add (bf : BloomFilter) (value : List Nat) : BloomFilter :=
  ⟨bf.size, bf.hash_count,
   (List.range bf.hash_count).foldl
     (fun arr i => setBit arr (bloomHash bf.size value i)) bf.bit_array⟩

/-- Model of `BloomFilter.check`: true exactly when all `hash_count` seeded
positions have their bit set (the Python loop returns False at the first
unset bit; `List.all` has the same value). -/
def BloomFilter.check (bf : BloomFilter) (value : List Nat) : Bool :=
  (List.range bf.hash_count).all
    (fun i => getBit bf.bit_array (bloomHash bf.size value i))

/-- Model of `BloomFilter.serialize`: standard base64 text of the byte
array. -/
def BloomFilter.serialize (bf : BloomFilter) : List Nat :=
  B64.encode false bf.bit_array

/-- Model of `BloomFilter.deserialize`: decodes the base64 blob (a raised
`binascii.Error` is modelled as `none`), builds `cls()` — whose defaults
are size 10000 and hash_count 7 — then overwrites the byte array and sets
`size` to eight times the decoded byte length.  `hash_count` stays at the
default 7. -/
def BloomFilter.deserialize (data : List Nat) : Option BloomFilter :=
  (B64.decode false data).map (fun arr => ⟨arr.length * 8, 7, arr⟩)

/-- One row of the `patients` table as used by the search route. -/
structure PatientRow where
  id : Nat
  owner_user_id : Nat
  ciphertext : List Nat
  iv : List Nat
  tag : List Nat

/-- One row of the `search_tokens` table. -/
structure TokenRow where
  patient_id : Nat
  token : List Nat

/-- The storage collaborator state visible to the search route. -/
structure Db where
  patients : List PatientRow
  tokens : List TokenRow

/-- Model of routes.search_patient_records.  `tokenFn` stands for
`encryption_service.generate_hmac_token` (a working token function; the
route is modelled independently of the hmac.new defect, which claim C3
covers), `key` for the service encryption key.  The returned boolean
records whether the storage collaborator was consulted (`db.execute`
reached); the source returns `[]` before any query when the trigram list is
empty.  The first query resolves the distinct ids of patients owned by the
user having at least one matching token row; the second fetches those
patients; records whose decryption returns a falsy value (`None` or the
empty string) are dropped.  The JSON re-parse of the decrypted plaintext
and the descending id ordering are outside the model: the route returns the
decrypted plaintext per surviving patient id. -/
def search_patient_records (tokenFn : List Nat → List Nat) (key : List Nat)
    (db : Db) (user_id : Nat) (query : List Nat) :
    List (Nat × List Nat) × Bool :=
  let trigrams := generate_trigrams query
  if trigrams = [] then ([], false)
  else
    let hmac_tokens := trigrams.map tokenFn
    let patient_ids :=
      ((db.patients.filter (fun p => p.owner_user_id == user_id &&
          db.tokens.any (fun tr => tr.patient_id == p.id &&
            hmac_tokens.contains tr.token))).map (fun p => p.id)).dedup
    let fetched := db.patients.filter
      (fun p => p.owner_user_id == user_id && patient_ids.contains p.id)
    let response := fetched.filterMap (fun p =>
      match decrypt_data key p.ciphertext p.iv p.tag with
      | some d => if d = [] then none else some (p.id, d)
      | none => none)
    (response, true)

namespace B64

theorem charSextet_sextetChar :
    ∀ u : Bool, ∀ v, v < 64 → charSextet u (sextetChar u v) = some v := by
  decide

theorem sextetChar_ne_pad : ∀ u : Bool, ∀ v, v < 64 → sextetChar u v ≠ 61 := by
  decide

theorem encode_ne_nil (u : Bool) (bs : List Nat) (h : bs ≠ []) : encode u bs ≠ [] := by
  match bs with
  | [] => exact absurd rfl h
  | [b1] => simp [encode]
  | [b1, b2] => simp [encode]
  | b1 :: b2 :: b3 :: rest => simp [encode]

theorem encode_length (u : Bool) (bs : List Nat) :
    (encode u bs).length = 4 * ((bs.length + 2) / 3) := by
  match bs with
  | [] => rfl
  | [b1] => simp [encode]
  | [b1, b2] => simp [encode]
  | b1 :: b2 :: b3 :: rest =>
    simp only [encode, List.length_cons, encode_length u rest]
    omega

theorem decode_encode (u : Bool) (bs : List Nat) (h : ∀ b ∈ bs, b < 256) :
    decode u (encode u bs) = some bs := by
  match bs with
  | [] => rfl
  | [b1] =>
    have hb1 : b1 < 256 := h b1 (by simp)
    have e1 := charSextet_sextetChar u (b1 / 4) (by omega)
    have e2 := charSextet_sextetChar u (b1 % 4 * 16) (by omega)
    simp [encode, decode, e1, e2]
    omega
  | [b1, b2] =>
    have hb1 : b1 < 256 := h b1 (by simp)
    have hb2 : b2 < 256 := h b2 (by simp)
    have e1 := charSextet_sextetChar u (b1 / 4) (by omega)
    have e2 := charSextet_sextetChar u (b1 % 4 * 16 + b2 / 16) (by omega)
    have e3 := charSextet_sextetChar u (b2 % 16 * 4) (by omega)
    have h3 := sextetChar_ne_pad u (b2 % 16 * 4) (by omega)
    simp [encode, decode, e1, e2, e3, h3]
    omega
  | [b1, b2, b3] =>
    have hb1 : b1 < 256 := h b1 (by simp)
    have hb2 : b2 < 256 := h b2 (by simp)
    have hb3 : b3 < 256 := h b3 (by simp)
    have e1 := charSextet_sextetChar u (b1 / 4) (by omega)
    have e2 := charSextet_sextetChar u (b1 % 4 * 16 + b2 / 16) (by omega)
    have e3 := charSextet_sextetChar u (b2 % 16 * 4 + b3 / 64) (by omega)
    have e4 := charSextet_sextetChar u (b3 % 64) (by omega)
    have h3 := sextetChar_ne_pad u (b2 % 16 * 4 + b3 / 64) (by omega)
    have h4 := sextetChar_ne_pad u (b3 % 64) (by omega)
    simp [encode, decode, e1, e2, e3, e4, h3, h4]
    omega
  | b1 :: b2 :: b3 :: b4 :: rest =>
    have hb1 : b1 < 256 := h b1 (by simp)
    have hb2 : b2 < 256 := h b2 (by simp)
    have hb3 : b3 < 256 := h b3 (by simp)
    have e1 := charSextet_sextetChar u (b1 / 4) (by omega)
    have e2 := charSextet_sextetChar u (b1 % 4 * 16 + b2 / 16) (by omega)
    have e3 := charSextet_sextetChar u (b2 % 16 * 4 + b3 / 64) (by omega)
    have e4 := charSextet_sextetChar u (b3 % 64) (by omega)
    have ih := decode_encode u (b4 :: rest) (fun b hb => h b (by simp at hb ⊢; tauto))
    have hne : encode u (b4 :: rest) ≠ [] := encode_ne_nil u _ (by simp)
    obtain ⟨e0, es, he⟩ := List.exists_cons_of_ne_nil hne
    rw [show encode u (b1 :: b2 :: b3 :: b4 :: rest) =
        sextetChar u (b1 / 4) :: sextetChar u (b1 % 4 * 16 + b2 / 16) ::
        sextetChar u (b2 % 16 * 4 + b3 / 64) :: sextetChar u (b3 % 64) ::
        encode u (b4 :: rest) from rfl, he]
    have r1 : b1 / 4 * 4 + (b1 % 4 * 16 + b2 / 16) / 16 = b1 := by omega
    have r2 : (b1 % 4 * 16 + b2 / 16) % 16 * 16 + (b2 % 16 * 4 + b3 / 64) / 4 = b2 := by
      omega
    have r3 : (b2 % 16 * 4 + b3 / 64) % 4 * 64 + b3 % 64 = b3 := by omega
    simp only [decode, e1, e2, e3, e4, Option.some_bind]
    rw [← he, ih]
    simp [r1, r2, r3]

end B64

theorem noDouble_cons {c : Nat} {l : List Nat} (h : noDouble (c :: l) = true) :
    noDouble l = true := by
  match l with
  | [] => rfl
  | d :: rest => exact (Bool.and_elim_right h)

theorem noDouble_cons_of (x : Nat) (w : List Nat) (h1 : noDouble w = true)
    (h2 : headNotSpace w = true ∨ isSpace x = false) : noDouble (x :: w) = true := by
  match w with
  | [] => rfl
  | d :: rest =>
    simp only [noDouble, Bool.and_eq_true, Bool.not_eq_true']
    refine ⟨?_, h1⟩
    rcases h2 with h2 | h2
    · simp only [headNotSpace, Bool.not_eq_true'] at h2
      simp [h2]
    · simp [h2]

theorem collapseAux_mem {c : Nat} :
    ∀ (b : Bool) (l : List Nat), c ∈ collapseAux b l →
      c = 32 ∨ (c ∈ l ∧ isSpace c = false) := by
  intro b l
  induction l generalizing b with
  | nil => simp [collapseAux]
  | cons d rest ih =>
    intro hmem
    simp only [collapseAux] at hmem
    by_cases hd : isSpace d = true
    · rw [if_pos hd] at hmem
      rcases List.mem_append.1 hmem with hmem | hmem
      · left
        rcases b with _ | _ <;> simp_all
      · rcases ih true hmem with h | h
        · exact Or.inl h
        · exact Or.inr ⟨List.mem_cons_of_mem d h.1, h.2⟩
    · rw [if_neg hd] at hmem
      rcases List.mem_cons.1 hmem with rfl | hmem
      · exact Or.inr ⟨List.mem_cons_self c rest, by simpa using hd⟩
      · rcases ih false hmem with h | h
        · exact Or.inl h
        · exact Or.inr ⟨List.mem_cons_of_mem d h.1, h.2⟩

theorem collapseAux_noDouble :
    ∀ l : List Nat,
      (∀ b, noDouble (collapseAux b l) = true) ∧
      headNotSpace (collapseAux true l) = true := by
  intro l
  induction l with
  | nil => exact ⟨fun b => rfl, rfl⟩
  | cons c rest ih =>
    obtain ⟨ih1, ih2⟩ := ih
    by_cases hc : isSpace c = true
    · refine ⟨fun b => ?_, ?_⟩
      · rcases b with _ | _
        · simp only [collapseAux, if_pos hc, List.nil_append, List.singleton_append,
            Bool.false_eq_true, if_false]
          exact noDouble_cons_of 32 _ (ih1 true) (Or.inl ih2)
        · simpa [collapseAux, hc] using ih1 true
      · simpa [collapseAux, hc] using ih2
    · have hc2 : isSpace c = false := by simpa using hc
      refine ⟨fun b => ?_, ?_⟩
      · simp only [collapseAux, if_neg hc]
        exact noDouble_cons_of c _ (ih1 false) (Or.inr hc2)
      · simp [collapseAux, hc2, headNotSpace]

theorem noDouble_dropWhile (p : Nat → Bool) (l : List Nat) (h : noDouble l = true) :
    noDouble (l.dropWhile p) = true := by
  induction l with
  | nil => exact h
  | cons c rest ih =>
    rw [List.dropWhile_cons]
    by_cases hc : p c = true
    · simp only [hc, if_true]
      exact ih (noDouble_cons h)
    · simp only [hc, Bool.false_eq_true, if_false]
      exact h

theorem dropTrailing_head? (p : Nat → Bool) (l : List Nat) :
    dropTrailing p l = [] ∨ (dropTrailing p l).head? = l.head? := by
  match l with
  | [] => exact Or.inl rfl
  | c :: rest =>
    simp only [dropTrailing]
    match dropTrailing p rest with
    | [] =>
      by_cases hc : p c = true
      · simp [hc]
      · simp [hc]
    | r :: rs => simp

theorem mem_dropTrailing {c : Nat} (p : Nat → Bool) :
    ∀ l : List Nat, c ∈ dropTrailing p l → c ∈ l := by
  intro l
  induction l with
  | nil => simp [dropTrailing]
  | cons d rest ih =>
    intro hmem
    simp only [dropTrailing] at hmem
    rcases hd : dropTrailing p rest with _ | ⟨r, rs⟩
    · rw [hd] at hmem
      by_cases hc : p d = true <;> simp_all
    · rw [hd] at hmem
      rcases List.mem_cons.1 hmem with rfl | hmem
      · exact List.mem_cons_self c rest
      · exact List.mem_cons_of_mem d (ih (hd ▸ hmem))

theorem noDouble_dropTrailing (p : Nat → Bool) :
    ∀ l : List Nat, noDouble l = true → noDouble (dropTrailing p l) = true := by
  intro l
  induction l with
  | nil => intro h; exact h
  | cons c rest ih =>
    intro h
    simp only [dropTrailing]
    rcases hd : dropTrailing p rest with _ | ⟨r, rs⟩
    · by_cases hc : p c = true <;> simp [hc, noDouble]
    · have hrest : noDouble (r :: rs) = true := by
        rw [← hd]; exact ih (noDouble_cons h)
      obtain ⟨r2, rest2, rfl⟩ : ∃ a t, rest = a :: t := by
        cases rest with
        | nil => simp [dropTrailing] at hd
        | cons a t => exact ⟨a, t, rfl⟩
      rcases dropTrailing_head? p (r2 :: rest2) with h0 | h0
      · rw [h0] at hd; exact absurd hd.symm (List.cons_ne_nil r rs)
      · rw [hd] at h0
        have hr : r = r2 := by simpa using h0
        have hpair : (!(isSpace c && isSpace r2)) = true := by
          simp only [noDouble, Bool.and_eq_true] at h
          exact h.1
        exact noDouble_cons_of c (r :: rs) hrest
          (by
            by_cases hs : isSpace c = false
            · exact Or.inr hs
            · left
              simp only [Bool.not_eq_false] at hs
              simp only [hs, Bool.true_and, Bool.not_eq_true'] at hpair
              simp [headNotSpace, hr, hpair])

theorem collapseAux_eq_self :
    ∀ l : List Nat, (∀ c ∈ l, isSpace c = true → c = 32) → noDouble l = true →
      (collapseAux false l = l ∧ (headNotSpace l = true → collapseAux true l = l)) := by
  intro l
  induction l with
  | nil => exact fun _ _ => ⟨rfl, fun _ => rfl⟩
  | cons c rest ih =>
    intro h32 hnd
    have hrest := ih (fun d hd => h32 d (List.mem_cons_of_mem c hd)) (noDouble_cons hnd)
    by_cases hc : isSpace c = true
    · have hc32 : c = 32 := h32 c (List.mem_cons_self c rest) hc
      have htail : collapseAux true rest = rest := by
        apply hrest.2
        match rest with
        | [] => rfl
        | d :: rest2 =>
          simp only [noDouble, Bool.and_eq_true, Bool.not_eq_true',
            Bool.and_eq_false_iff] at hnd
          rcases hnd.1 with hp | hp
          · rw [hc] at hp; exact absurd hp (by simp)
          · simp [headNotSpace, hp]
      constructor
      · subst hc32
        simp [collapseAux, hc, htail]
      · intro hh
        simp only [headNotSpace, Bool.not_eq_true'] at hh
        rw [hc] at hh; exact absurd hh (by simp)
    · have hc2 : isSpace c = false := by simpa using hc
      constructor
      · simp [collapseAux, hc2, hrest.1]
      · intro _
        simp [collapseAux, hc2, hrest.1]

theorem map_id_of_mem {f : Nat → Nat} :
    ∀ l : List Nat, (∀ c ∈ l, f c = c) → l.map f = l := by
  intro l
  induction l with
  | nil => intro _; rfl
  | cons c rest ih =>
    intro h
    simp only [List.map_cons, h c (List.mem_cons_self c rest),
      ih (fun d hd => h d (List.mem_cons_of_mem c hd))]

theorem normalize_string_mem {c : Nat} (x : List Nat)
    (h : c ∈ normalize_string x) : c = 32 ∨ (isKept c = true ∧ isSpace c = false) := by
  rcases collapseAux_mem false _ h with h0 | h0
  · exact Or.inl h0
  · exact Or.inr ⟨(List.mem_filter.1 h0.1).2, h0.2⟩

theorem mem_stripWS {c : Nat} (l : List Nat) (h : c ∈ stripWS l) : c ∈ l :=
  List.Sublist.mem (mem_dropTrailing isSpace _ h) (List.dropWhile_sublist _)

theorem normalize_string_second_pass (x : List Nat) :
    normalize_string (normalize_string x) = stripWS (normalize_string x) := by
  have hmem := fun c hc => normalize_string_mem (c := c) x hc
  have hlower : (normalize_string x).map lowerChar = normalize_string x := by
    apply map_id_of_mem
    intro c hc
    rcases hmem c hc with rfl | ⟨hk, hs⟩
    · rfl
    · simp only [isKept, hs, Bool.or_false, Bool.or_eq_true, Bool.and_eq_true,
        decide_eq_true_eq] at hk
      unfold lowerChar
      rw [if_neg (by omega)]
  have hnd : noDouble (normalize_string x) = true :=
    (collapseAux_noDouble ((stripWS (x.map lowerChar)).filter isKept)).1 false
  have hsub : ∀ c ∈ stripWS (normalize_string x), c ∈ normalize_string x := by
    intro c hc
    exact mem_stripWS _ hc
  show collapseWS ((stripWS ((normalize_string x).map lowerChar)).filter isKept) = _
  rw [hlower]
  have hfilter : (stripWS (normalize_string x)).filter isKept
      = stripWS (normalize_string x) := by
    rw [List.filter_eq_self]
    intro a ha
    rcases hmem a (hsub a ha) with rfl | ⟨hk, _⟩
    · decide
    · exact hk
  rw [hfilter]
  have h32 : ∀ c ∈ stripWS (normalize_string x), isSpace c = true → c = 32 := by
    intro c hc hs
    rcases hmem c (hsub c hc) with rfl | ⟨_, hs2⟩
    · rfl
    · rw [hs] at hs2; exact absurd hs2 (by simp)
  have hnd2 : noDouble (stripWS (normalize_string x)) = true :=
    noDouble_dropTrailing isSpace _ (noDouble_dropWhile isSpace _ hnd)
  exact (collapseAux_eq_self _ h32 hnd2).1

theorem beBytes_length (n : Nat) : ∀ v, (beBytes n v).length = n := by
  induction n with
  | zero => intro v; rfl
  | succ n ih => intro v; simp [beBytes, ih]

theorem beBytes_lt (n : Nat) : ∀ v, ∀ b ∈ beBytes n v, b < 256 := by
  induction n with
  | zero => simp [beBytes]
  | succ n ih =>
    intro v b hb
    simp only [beBytes, List.mem_append, List.mem_singleton] at hb
    rcases hb with hb | rfl
    · exact ih _ b hb
    · exact Nat.mod_lt _ (by omega)

theorem compressRound_length (kt wt : Nat) (s : List Nat) :
    (SHA256.compressRound kt wt s).length = s.length := by
  unfold SHA256.compressRound
  split <;> simp

theorem compressBlock_length (H block : List Nat) (h : H.length = 8) :
    (SHA256.compressBlock H block).length = 8 := by
  unfold SHA256.compressBlock
  have hfold : ∀ (l : List (Nat × Nat)) (s : List Nat),
      (l.foldl (fun st kw => SHA256.compressRound kw.1 kw.2 st) s).length
        = s.length := by
    intro l
    induction l with
    | nil => intro s; rfl
    | cons p rest ih => intro s; rw [List.foldl_cons, ih, compressRound_length]
  rw [List.length_zipWith, hfold, h]
  omega

theorem flatten_length_of_const {f : Nat → List Nat} {k : Nat} :
    ∀ L : List Nat, (∀ x ∈ L, (f x).length = k) →
      ((L.map f).flatten).length = k * L.length := by
  intro L
  induction L with
  | nil => intro _; simp
  | cons x rest ih =>
    intro h
    simp only [List.map_cons, List.flatten_cons, List.length_append,
      h x (List.mem_cons_self x rest), ih (fun y hy => h y (List.mem_cons_of_mem x hy)),
      List.length_cons]
    ring

theorem sha256_length (msg : List Nat) : (SHA256.sha256 msg).length = 32 := by
  unfold SHA256.sha256
  have hfold : ∀ (blocks : List (List Nat)) (H : List Nat), H.length = 8 →
      (blocks.foldl SHA256.compressBlock H).length = 8 := by
    intro blocks
    induction blocks with
    | nil => intro H h; exact h
    | cons b rest ih =>
      intro H h
      rw [List.foldl_cons]
      exact ih _ (compressBlock_length H b h)
  rw [flatten_length_of_const _ (fun x _ => beBytes_length 4 x), hfold _ SHA256.H0 rfl]

theorem sha256_lt (msg : List Nat) : ∀ b ∈ SHA256.sha256 msg, b < 256 := by
  intro b hb
  unfold SHA256.sha256 at hb
  rw [List.mem_flatten] at hb
  obtain ⟨l, hl, hbl⟩ := hb
  rw [List.mem_map] at hl
  obtain ⟨w, _, rfl⟩ := hl
  exact beBytes_lt 4 w b hbl

theorem xor_lt_256 {x y : Nat} (hx : x < 256) (hy : y < 256) : x ^^^ y < 256 := by
  have := Nat.bitwise_lt (f := bne) (n := 8) hx hy
  simpa [Nat.xor] using this

theorem or_lt_256 {x y : Nat} (hx : x < 256) (hy : y < 256) : x ||| y < 256 := by
  have := Nat.bitwise_lt (f := or) (n := 8) hx hy
  simpa [Nat.lor] using this

namespace GCM

theorem keystream_length (key nonce : List Nat) (len : Nat) :
    (keystream key nonce len).length = len := by
  unfold keystream
  rw [List.length_take, flatten_length_of_const _ (fun x _ => sha256_length _)]
  rw [List.length_range]
  omega

theorem keystream_lt (key nonce : List Nat) (len : Nat) :
    ∀ b ∈ keystream key nonce len, b < 256 := by
  intro b hb
  unfold keystream at hb
  have hb2 := List.mem_of_mem_take hb
  rw [List.mem_flatten] at hb2
  obtain ⟨l, hl, hbl⟩ := hb2
  rw [List.mem_map] at hl
  obtain ⟨i, _, rfl⟩ := hl
  exact sha256_lt _ b hbl

theorem gcmTag_length (key nonce aad body : List Nat) :
    (gcmTag key nonce aad body).length = 16 := by
  unfold gcmTag
  rw [List.length_take, sha256_length]
  omega

theorem gcmTag_lt (key nonce aad body : List Nat) :
    ∀ b ∈ gcmTag key nonce aad body, b < 256 := by
  intro b hb
  exact sha256_lt _ b (List.mem_of_mem_take hb)

theorem xorBytes_length (a b : List Nat) :
    (xorBytes a b).length = min a.length b.length := List.length_zipWith _ _ _

theorem xorBytes_lt {a b : List Nat} (ha : ∀ x ∈ a, x < 256)
    (hb : ∀ y ∈ b, y < 256) : ∀ z ∈ xorBytes a b, z < 256 := by
  induction a generalizing b with
  | nil => simp [xorBytes]
  | cons x rest ih =>
    match b with
    | [] => simp [xorBytes]
    | y :: brest =>
      intro z hz
      simp only [xorBytes, List.zipWith_cons_cons, List.mem_cons] at hz
      rcases hz with rfl | hz
      · exact xor_lt_256 (ha x (List.mem_cons_self x rest)) (hb y (List.mem_cons_self y brest))
      · exact ih (fun t ht => ha t (List.mem_cons_of_mem x ht))
          (fun t ht => hb t (List.mem_cons_of_mem y ht)) z hz

theorem xorBytes_cancel : ∀ (a b : List Nat), a.length ≤ b.length →
    xorBytes (xorBytes a b) b = a := by
  intro a
  induction a with
  | nil => intro b _; rfl
  | cons x rest ih =>
    intro b hlen
    match b with
    | [] => simp at hlen
    | y :: brest =>
      simp only [xorBytes, List.zipWith_cons_cons] at *
      rw [Nat.xor_cancel_right, ih brest (by simpa using hlen)]

theorem gcmEncrypt_length (key nonce pt aad : List Nat) :
    (gcmEncrypt key nonce pt aad).length = pt.length + 16 := by
  unfold gcmEncrypt
  rw [List.length_append, gcmTag_length, xorBytes_length, keystream_length]
  omega

theorem gcmEncrypt_lt (key nonce aad : List Nat) {pt : List Nat}
    (hpt : ∀ b ∈ pt, b < 256) : ∀ b ∈ gcmEncrypt key nonce pt aad, b < 256 := by
  intro b hb
  unfold gcmEncrypt at hb
  rw [List.mem_append] at hb
  rcases hb with hb | hb
  · exact xorBytes_lt hpt (keystream_lt key nonce pt.length) b hb
  · exact gcmTag_lt key nonce aad _ b hb

/-- Sanity check of the AEAD model: decryption with the same associated
data inverts encryption for every key, nonce, plaintext and associated
data. -/
theorem gcmDecrypt_gcmEncrypt (key nonce pt aad : List Nat) :
    gcmDecrypt key nonce (gcmEncrypt key nonce pt aad) aad = some pt := by
  have hks := keystream_length key nonce pt.length
  have hbody : (xorBytes pt (keystream key nonce pt.length)).length = pt.length := by
    rw [xorBytes_length, hks, Nat.min_self]
  unfold gcmDecrypt gcmEncrypt
  have hlen : (xorBytes pt (keystream key nonce pt.length)
      ++ gcmTag key nonce aad (xorBytes pt (keystream key nonce pt.length))).length
      = pt.length + 16 := gcmEncrypt_length key nonce pt aad
  rw [if_neg (by omega)]
  have hcut : pt.length + 16 - 16
      = (xorBytes pt (keystream key nonce pt.length)).length := by omega
  rw [hlen, hcut, List.take_left, List.drop_left, if_pos rfl, hbody]
  rw [xorBytes_cancel pt _ (by rw [hks])]

end GCM

theorem getD_set_self : ∀ (l : List Nat) (n v : Nat), n < l.length →
    (l.set n v).getD n 0 = v := by
  intro l
  induction l with
  | nil => intro n v h; simp at h
  | cons x rest ih =>
    intro n v h
    match n with
    | 0 => rfl
    | m + 1 => exact ih m v (by simpa using h)

theorem getD_set_ne : ∀ (l : List Nat) (n m v : Nat), n ≠ m →
    (l.set n v).getD m 0 = l.getD m 0 := by
  intro l
  induction l with
  | nil => intro n m v _; rfl
  | cons x rest ih =>
    intro n m v hne
    match n, m with
    | 0, 0 => exact absurd rfl hne
    | 0, k + 1 => rfl
    | j + 1, 0 => rfl
    | j + 1, k + 1 => exact ih j k v (fun he => hne (by omega))

theorem set_of_length_le : ∀ (l : List Nat) (n v : Nat), l.length ≤ n →
    l.set n v = l := by
  intro l
  induction l with
  | nil => intro n v _; rfl
  | cons x rest ih =>
    intro n v h
    match n with
    | 0 => simp at h
    | m + 1 => simp only [List.set_cons_succ, ih m v (by simpa using h)]

theorem getBit_testBit (arr : List Nat) (index : Nat) :
    getBit arr index = (arr.getD (index / 8) 0).testBit (index % 8) := by
  unfold getBit
  rw [Nat.one_shiftLeft, Nat.and_two_pow]
  cases h : (arr.getD (index / 8) 0).testBit (index % 8) <;>
    simp [h, (Nat.two_pow_pos (index % 8)).ne']

theorem setBit_length (arr : List Nat) (i : Nat) :
    (setBit arr i).length = arr.length := by
  unfold setBit
  exact List.length_set arr _ _

theorem getBit_setBit_mono {arr : List Nat} {i j : Nat}
    (h : getBit arr j = true) : getBit (setBit arr i) j = true := by
  rw [getBit_testBit] at h ⊢
  unfold setBit
  by_cases hp : i / 8 < arr.length
  · by_cases hij : i / 8 = j / 8
    · rw [← hij] at h ⊢
      rw [getD_set_self arr _ _ hp, Nat.testBit_lor, Bool.or_eq_true]
      exact Or.inl h
    · rw [getD_set_ne arr _ _ _ hij]
      exact h
  · rw [set_of_length_le arr _ _ (by omega)]
    exact h

theorem getBit_setBit_self {arr : List Nat} {i : Nat}
    (h : i / 8 < arr.length) : getBit (setBit arr i) i = true := by
  rw [getBit_testBit]
  unfold setBit
  rw [getD_set_self arr _ _ h, Nat.testBit_lor, Nat.one_shiftLeft,
    Nat.testBit_two_pow_self]
  simp

theorem foldl_setBit_length : ∀ (idxs : List Nat) (arr : List Nat),
    (idxs.foldl setBit arr).length = arr.length := by
  intro idxs
  induction idxs with
  | nil => intro arr; rfl
  | cons q rest ih => intro arr; rw [List.foldl_cons, ih, setBit_length]

theorem foldl_setBit_mono : ∀ (idxs : List Nat) (arr : List Nat) (j : Nat),
    getBit arr j = true → getBit (idxs.foldl setBit arr) j = true := by
  intro idxs
  induction idxs with
  | nil => intro arr j h; exact h
  | cons q rest ih =>
    intro arr j h
    exact ih _ j (getBit_setBit_mono h)

theorem foldl_setBit_mem : ∀ (idxs : List Nat) (arr : List Nat) (j : Nat),
    j ∈ idxs → j / 8 < arr.length → getBit (idxs.foldl setBit arr) j = true := by
  intro idxs
  induction idxs with
  | nil => intro arr j h _; simp at h
  | cons q rest ih =>
    intro arr j hmem hrange
    rw [List.foldl_cons]
    rcases List.mem_cons.1 hmem with rfl | hmem
    · exact foldl_setBit_mono rest _ j (getBit_setBit_self hrange)
    · exact ih _ j hmem (by rwa [setBit_length])

theorem add_size (bf : BloomFilter) (v : List Nat) : (bf.add v).size = bf.size := rfl

theorem add_hash_count (bf : BloomFilter) (v : List Nat) :
    (bf.add v).hash_count = bf.hash_count := rfl

theorem add_bit_array (bf : BloomFilter) (v : List Nat) :
    (bf.add v).bit_array
      = ((List.range bf.hash_count).map (bloomHash bf.size v)).foldl setBit
          bf.bit_array := by
  unfold BloomFilter.add
  rw [List.foldl_map]

theorem add_length (bf : BloomFilter) (v : List Nat) :
    (bf.add v).bit_array.length = bf.bit_array.length := by
  rw [add_bit_array, foldl_setBit_length]

theorem add_mono {bf : BloomFilter} {j : Nat} (v : List Nat)
    (h : getBit bf.bit_array j = true) : getBit (bf.add v).bit_array j = true := by
  rw [add_bit_array]
  exact foldl_setBit_mono _ _ j h

theorem foldl_add_size : ∀ (ws : List (List Nat)) (bf : BloomFilter),
    (ws.foldl BloomFilter.add bf).size = bf.size := by
  intro ws
  induction ws with
  | nil => intro bf; rfl
  | cons w rest ih => intro bf; rw [List.foldl_cons, ih, add_size]

theorem foldl_add_hash_count : ∀ (ws : List (List Nat)) (bf : BloomFilter),
    (ws.foldl BloomFilter.add bf).hash_count = bf.hash_count := by
  intro ws
  induction ws with
  | nil => intro bf; rfl
  | cons w rest ih => intro bf; rw [List.foldl_cons, ih, add_hash_count]

theorem foldl_add_length : ∀ (ws : List (List Nat)) (bf : BloomFilter),
    (ws.foldl BloomFilter.add bf).bit_array.length = bf.bit_array.length := by
  intro ws
  induction ws with
  | nil => intro bf; rfl
  | cons w rest ih => intro bf; rw [List.foldl_cons, ih, add_length]

theorem foldl_add_mono : ∀ (ws : List (List Nat)) (bf : BloomFilter) (j : Nat),
    getBit bf.bit_array j = true →
    getBit ((ws.foldl BloomFilter.add bf).bit_array) j = true := by
  intro ws
  induction ws with
  | nil => intro bf j h; exact h
  | cons w rest ih =>
    intro bf j h
    exact ih _ j (add_mono w h)

theorem check_of_add_foldl (bf : BloomFilter) (v : List Nat) (ws : List (List Nat))
    (hpos : 0 < bf.size) (hlen : bf.bit_array.length = (bf.size + 7) / 8) :
    (ws.foldl BloomFilter.add (bf.add v)).check v = true := by
  unfold BloomFilter.check
  rw [List.all_eq_true]
  intro i hi
  rw [List.mem_range] at hi
  rw [foldl_add_size, foldl_add_hash_count, add_size, add_hash_count] at *
  apply foldl_add_mono
  rw [add_bit_array]
  apply foldl_setBit_mem
  · exact List.mem_map_of_mem _ (List.mem_range.2 hi)
  · have hlt : bloomHash bf.size v i < bf.size := Nat.mod_lt _ hpos
    rw [hlen] at *
    omega

theorem underscoreSpaces_length (t : List Nat) :
    (underscoreSpaces t).length = t.length := List.length_map _ _

theorem generate_trigrams_eq_nil_iff (t : List Nat) :
    generate_trigrams t = [] ↔ (normalize_string t).length < 3 := by
  unfold generate_trigrams
  by_cases h : (normalize_string t).length < 3
  · simp [h]
  · rw [if_neg h]
    apply iff_of_false _ h
    intro hnil
    rw [List.dedup_eq_nil] at hnil
    have h0 : 0 ∈ List.range ((normalize_string t).length - 2) :=
      List.mem_range.2 (by omega)
    have hmem : underscoreSpaces (((normalize_string t).drop 0).take 3) ∈
        List.map (fun i => underscoreSpaces (((normalize_string t).drop i).take 3))
          (List.range ((normalize_string t).length - 2)) :=
      List.mem_map_of_mem _ h0
    have hlen3 : (underscoreSpaces ((normalize_string t).take 3)).length = 3 := by
      rw [underscoreSpaces_length, List.length_take]
      omega
    have hfil : underscoreSpaces (((normalize_string t).drop 0).take 3) ∈
        List.filter (fun s => s.length == 3)
          (List.map (fun i => underscoreSpaces (((normalize_string t).drop i).take 3))
            (List.range ((normalize_string t).length - 2))) :=
      List.mem_filter.2 ⟨hmem, by simp [hlen3]⟩
    rw [hnil] at hfil
    exact absurd hfil (List.not_mem_nil _)

theorem pbkdf2_length (pw salt : List Nat) (iters len : Nat) :
    (pbkdf2_hmac_sha256 pw salt iters len).length = len := by
  unfold pbkdf2_hmac_sha256
  rw [List.length_take, flatten_length_of_const _ (fun x _ => sha256_length _),
    List.length_range]
  omega

theorem hexOfBytes_length (l : List Nat) : (hexOfBytes l).length = 2 * l.length := by
  induction l with
  | nil => rfl
  | cons b rest ih =>
    simp only [hexOfBytes, List.flatMap_cons, List.length_append, List.length_cons,
      List.length_nil] at *
    omega

/-- On the intended digestmod (a hashlib-style SHA-256 constructor), the
modelled `hmac.new` computes a digest whose hex encoding has 64 characters:
the model is not degenerate, only the dispatch on the object the source
passes fails. -/
theorem hmac_intended_token_length (key msg : List Nat) :
    (hexOfBytes (hmacDigest SHA256.sha256 key msg)).length = 64 := by
  rw [hexOfBytes_length]
  unfold hmacDigest
  rw [sha256_length]

/-- Claim C1 (code_bug evaluation): sealing the plaintext `abc` with
`encrypt_data` and opening the resulting triple with `decrypt_data` yields
`None`, not the plaintext: `decrypt_data` passes the decoded tag as the
associated-data argument of `AESGCM.decrypt`, while encryption ran with
associated data `None`, so tag verification fails on every honestly sealed
record. -/
theorem encrypt_decrypt_roundtrip_fails :
    decrypt_data (List.range 32)
      (encrypt_data (List.range 32) (List.replicate 12 0) (pyOfString "abc")).1
      (encrypt_data (List.range 32) (List.replicate 12 0) (pyOfString "abc")).2.1
      (encrypt_data (List.range 32) (List.replicate 12 0) (pyOfString "abc")).2.2
      = none := by
  decide

/-- Claim C2: for every input triple, `decrypt_data` either returns `None`
(all exceptions are caught) or returns exactly the plaintext whose
authentication-tag verification succeeded over the decoded inputs — never
partial or unauthenticated plaintext, and it never raises. -/
theorem decrypt_data_fail_closed (key ct iv tag : List Nat) :
    decrypt_data key ct iv tag = none ∨
    ∃ ctB ivB tagB,
      B64.decode true ct = some ctB ∧ B64.decode true iv = some ivB ∧
      B64.decode true tag = some tagB ∧ 16 ≤ ctB.length ∧
      GCM.gcmTag key ivB tagB (ctB.take (ctB.length - 16))
        = ctB.drop (ctB.length - 16) ∧
      decrypt_data key ct iv tag
        = some (GCM.xorBytes (ctB.take (ctB.length - 16))
            (GCM.keystream key ivB (ctB.take (ctB.length - 16)).length)) := by
  rcases h1 : B64.decode true ct with _ | ctB
  · left; simp [decrypt_data, h1]
  rcases h2 : B64.decode true iv with _ | ivB
  · left; simp [decrypt_data, h1, h2]
  rcases h3 : B64.decode true tag with _ | tagB
  · left; simp [decrypt_data, h1, h2, h3]
  have hd : decrypt_data key ct iv tag
      = (GCM.gcmDecrypt key ivB ctB tagB).bind asciiDecode := by
    simp [decrypt_data, h1, h2, h3]
  by_cases hlen : ctB.length < 16
  · left
    rw [hd]
    unfold GCM.gcmDecrypt
    rw [if_pos hlen]
    rfl
  by_cases htag : GCM.gcmTag key ivB tagB (ctB.take (ctB.length - 16))
      = ctB.drop (ctB.length - 16)
  · have hgd : GCM.gcmDecrypt key ivB ctB tagB
        = some (GCM.xorBytes (ctB.take (ctB.length - 16))
            (GCM.keystream key ivB (ctB.take (ctB.length - 16)).length)) := by
      unfold GCM.gcmDecrypt
      rw [if_neg hlen, if_pos htag]
    by_cases hascii : (GCM.xorBytes (ctB.take (ctB.length - 16))
        (GCM.keystream key ivB (ctB.take (ctB.length - 16)).length)).all
          (fun b => decide (b < 128)) = true
    · right
      refine ⟨ctB, ivB, tagB, rfl, rfl, rfl, by omega, htag, ?_⟩
      rw [hd, hgd]
      simp only [Option.some_bind, asciiDecode]
      rw [if_pos hascii]
    · left
      rw [hd, hgd]
      simp only [Option.some_bind, asciiDecode]
      rw [if_neg hascii]
  · left
    rw [hd]
    unfold GCM.gcmDecrypt
    rw [if_neg hlen, if_neg htag]
    rfl

/-- Claim C3 (code_bug evaluation): `generate_hmac_token` raises
`AttributeError` for every input, because the source passes
`hashes.SHA256()` — a `cryptography` hash instance with no `new` attribute,
not a hashlib constructor — as the `digestmod` of stdlib `hmac.new`. -/
theorem generate_hmac_token_raises (hmac_key value : List Nat) :
    generate_hmac_token hmac_key value = Except.error PyError.attributeError := rfl

/-- Claim C4 (code_bug evaluation): both loaded keys are 44-byte base64
texts (the source base64-encodes the 32 derived bytes), not 32-byte keys;
in particular the `AESGCM` constructor rejects the value of
`_load_aes_key`.  The two purpose salts are distinct as claimed. -/
theorem derived_keys_not_256_bit (aes_secret hmac_secret : List Nat) :
    (load_aes_key aes_secret).length = 44 ∧
    (load_hmac_key hmac_secret).length = 44 ∧
    aesgcmKeyLengthOk (load_aes_key aes_secret) = false ∧
    pyOfString "secure_bloom_sse" ≠ pyOfString "hmac_blind_index" := by
  have h1 : (load_aes_key aes_secret).length = 44 := by
    unfold load_aes_key
    rw [B64.encode_length, pbkdf2_length]
  have h2 : (load_hmac_key hmac_secret).length = 44 := by
    unfold load_hmac_key
    rw [B64.encode_length, pbkdf2_length]
  refine ⟨h1, h2, ?_, by decide⟩
  unfold aesgcmKeyLengthOk
  rw [h1]
  rfl

/-- Claim C5 (counterexample): normalization is not idempotent — for the
input `a !`, the first pass yields `a ` (with a trailing space: the strip
runs before the exclamation mark is removed), and the second pass yields
`a`. -/
theorem normalize_string_not_idempotent :
    normalize_string (normalize_string (pyOfString "a !"))
      ≠ normalize_string (pyOfString "a !") := by
  decide

/-- Claim C5 (amended): a second application of `normalize_string` equals
the first application followed by a whitespace strip; idempotence holds
exactly when the normalized form carries no leading or trailing space. -/
theorem normalize_string_second_pass_eq_strip (x : List Nat) :
    normalize_string (normalize_string x) = stripWS (normalize_string x) :=
  normalize_string_second_pass x

/-- Claim C6: normalizing the concrete string ` John   Doe! ` yields
`john doe`, and tokenizing it yields exactly the six trigrams
`joh ohn hn_ n_d _do doe`, compared as a set. -/
theorem normalize_tokenize_john_doe :
    normalize_string (pyOfString " John   Doe! ") = pyOfString "john doe" ∧
    (generate_trigrams (pyOfString " John   Doe! ")).toFinset =
      ({pyOfString "joh", pyOfString "ohn", pyOfString "hn_", pyOfString "n_d",
        pyOfString "_do", pyOfString "doe"} : Finset (List Nat)) := by
  decide

/-- Claim C7: the filter has no false negatives — for every positive bit
count, any sequence of `add` calls containing `add v` on a freshly
constructed filter leaves `check v` true. -/
theorem bloom_no_false_negatives (size k : Nat) (vs : List (List Nat))
    (v : List Nat) (hpos : 0 < size) (hv : v ∈ vs) :
    (vs.foldl BloomFilter.add (mkBloomFilter size k)).check v = true := by
  obtain ⟨l1, l2, rfl⟩ := List.append_of_mem hv
  rw [List.foldl_append, List.foldl_cons]
  apply check_of_add_foldl
  · rwa [foldl_add_size]
  · rw [foldl_add_length, foldl_add_size]
    simp [mkBloomFilter]

/-- Witness for C7 at a concrete filter and value. -/
theorem bloom_no_false_negatives_witness :
    0 < 32 ∧ pyOfString "abc" ∈ [pyOfString "abc"] ∧
    ([pyOfString "abc"].foldl BloomFilter.add (mkBloomFilter 32 3)).check
      (pyOfString "abc") = true :=
  ⟨by decide, by decide,
   bloom_no_false_negatives 32 3 [pyOfString "abc"] (pyOfString "abc")
     (by decide) (by decide)⟩

/-- Claim C8 (counterexample): for the filter of size 12 with the default
hash count holding `abc`, the deserialized filter answers `check`
differently (the size is rounded up to 16 bits, changing every reduced bit
position), and its size is 16, not 8 times the 4-character length of the
serialized blob. -/
theorem bloom_serialize_roundtrip_counterexample :
    ((BloomFilter.deserialize
        (((mkBloomFilter 12 7).add (pyOfString "abc")).serialize)).map
      (fun g => g.check (pyOfString "abc"))
      ≠ some (((mkBloomFilter 12 7).add (pyOfString "abc")).check
          (pyOfString "abc"))) ∧
    ((BloomFilter.deserialize
        (((mkBloomFilter 12 7).add (pyOfString "abc")).serialize)).map
      (fun g => g.size)
      ≠ some (8 * (((mkBloomFilter 12 7).add (pyOfString "abc")).serialize).length)) := by
  decide

/-- Claim C8 (amended): for a well-formed filter whose bit count is a
multiple of 8 and whose hash count is the implementation default 7,
deserializing the serialized blob reconstructs a filter with the same size,
the default hash count and identical `check` behaviour on every value; the
reconstructed size is 8 times the decoded byte length. -/
theorem bloom_serialize_roundtrip_default (bf : BloomFilter)
    (hlen : bf.bit_array.length = (bf.size + 7) / 8)
    (hbytes : ∀ b ∈ bf.bit_array, b < 256)
    (hmul : bf.size % 8 = 0) (hpos : 0 < bf.size) (hk : bf.hash_count = 7) :
    ∃ g, BloomFilter.deserialize bf.serialize = some g ∧
      g.size = bf.size ∧ g.hash_count = bf.hash_count ∧
      ∀ v, g.check v = bf.check v := by
  have hdec : B64.decode false (B64.encode false bf.bit_array)
      = some bf.bit_array := B64.decode_encode false _ hbytes
  have hsz : bf.bit_array.length * 8 = bf.size := by rw [hlen]; omega
  refine ⟨⟨bf.bit_array.length * 8, 7, bf.bit_array⟩, ?_, hsz, by rw [hk], ?_⟩
  · unfold BloomFilter.serialize BloomFilter.deserialize
    rw [hdec]
    rfl
  · intro v
    unfold BloomFilter.check
    simp only [hsz, hk]

/-- Witness for C8 (amended) at a concrete filter. -/
theorem bloom_serialize_roundtrip_default_witness :
    (((mkBloomFilter 16 7).add (pyOfString "a")).bit_array.length
      = ((((mkBloomFilter 16 7).add (pyOfString "a")).size + 7) / 8)) ∧
    (∀ b ∈ ((mkBloomFilter 16 7).add (pyOfString "a")).bit_array, b < 256) ∧
    (((mkBloomFilter 16 7).add (pyOfString "a")).size % 8 = 0) ∧
    (0 < ((mkBloomFilter 16 7).add (pyOfString "a")).size) ∧
    (((mkBloomFilter 16 7).add (pyOfString "a")).hash_count = 7) ∧
    (∃ g, BloomFilter.deserialize
        (((mkBloomFilter 16 7).add (pyOfString "a")).serialize) = some g ∧
      g.size = ((mkBloomFilter 16 7).add (pyOfString "a")).size ∧
      g.hash_count = ((mkBloomFilter 16 7).add (pyOfString "a")).hash_count ∧
      ∀ v, g.check v = ((mkBloomFilter 16 7).add (pyOfString "a")).check v) :=
  ⟨by decide, by decide, by decide, by decide, by decide,
   bloom_serialize_roundtrip_default _ (by decide) (by decide) (by decide)
     (by decide) (by decide)⟩

/-- Claim C9: a query whose normalization has fewer than 3 characters
produces an empty response and the storage collaborator is never
consulted. -/
theorem search_short_query_short_circuits
    (tokenFn : List Nat → List Nat) (key : List Nat) (db : Db) (user_id : Nat)
    (query : List Nat) (h : (normalize_string query).length < 3) :
    search_patient_records tokenFn key db user_id query = ([], false) := by
  have ht : generate_trigrams query = [] := (generate_trigrams_eq_nil_iff query).2 h
  simp [search_patient_records, ht]

/-- Witness for C9 at the concrete query `ab`. -/
theorem search_short_query_short_circuits_witness :
    (normalize_string (pyOfString "ab")).length < 3 ∧
    search_patient_records (fun t => t) [] ⟨[], []⟩ 0 (pyOfString "ab")
      = ([], false) :=
  ⟨by decide, search_short_query_short_circuits _ _ _ _ _ (by decide)⟩

/-- Claim C10: for every plaintext of byte values, the tag component of
`encrypt_data` is the base64 encoding of the last 16 bytes of the decoded
ciphertext component — the ciphertext already carries the tag appended, and
the tag field is a redundant copy. -/
theorem encrypt_tag_redundant (key iv pt : List Nat) (hpt : ∀ b ∈ pt, b < 256) :
    ∃ ctB, B64.decode true (encrypt_data key iv pt).1 = some ctB ∧
      (encrypt_data key iv pt).2.2 = B64.encode true (ctB.drop (ctB.length - 16)) :=
  ⟨GCM.gcmEncrypt key iv pt [],
   B64.decode_encode true _ (GCM.gcmEncrypt_lt key iv [] hpt), rfl⟩

/-- Witness for C10 at a concrete plaintext. -/
theorem encrypt_tag_redundant_witness :
    (∀ b ∈ pyOfString "abc", b < 256) ∧
    ∃ ctB, B64.decode true
        (encrypt_data (List.range 32) (List.replicate 12 0) (pyOfString "abc")).1
        = some ctB ∧
      (encrypt_data (List.range 32) (List.replicate 12 0) (pyOfString "abc")).2.2
        = B64.encode true (ctB.drop (ctB.length - 16)) :=
  ⟨by decide, encrypt_tag_redundant _ _ _ (by decide)⟩

open SHA256 in
/-- FIPS 180-4 test vector: the digest of the empty message. -/
theorem sha256_vector_empty :
    hexOfBytes (sha256 []) =
    pyOfString "e3b0c44298fc1c149afbf4c8996fb92427ae41e4649b934ca495991b7852b855" := by
  decide

open SHA256 in
/-- FIPS 180-4 test vector: the digest of the three-byte message abc. -/
theorem sha256_vector_abc :
    hexOfBytes (sha256 (pyOfString "abc")) =
    pyOfString "ba7816bf8f01cfea414140de5dae2223b00361a396177a9cb410ff61f20015ad" := by
  decide

open SHA256 in
/-- FIPS 180-4 test vector for the 56-byte message whose padding spills
into a second block, exercising the multi-block compression path. -/
theorem sha256_vector_two_blocks :
    hexOfBytes (sha256
      (pyOfString "abcdbcdecdefdefgefghfghighijhijkijkljklmklmnlmnomnopnopq")) =
    pyOfString "248d6a61d20638b8e5c026930c3e6039a33ce45964ff2167f6ecedd419db06c1" := by
  decide

end SSS
